import Mathlib

/-!
Verification of the span pipeline of the slice-text library.

The development shallowly embeds the TypeScript sources:

* `src/fns/index.ts` : `escapeRegex`, `pattern` (literal-escaping helper and
  boundary pattern builder);
* `src/index.ts` : `slicing` (occurrence scanner), `mergeOverlap`
  (overlap merger), `fillSliceGaps` (gap filler) and `sliceText`
  (pipeline facade).

Texts are modelled as lists of characters (JavaScript strings indexed by
code units); search words and generated patterns stay `String`.  The host
regular-expression engine is foreign to the library, so it is abstracted
as an `Exec` function from a compiled regex, a text, and a cursor
(`lastIndex`) to the next occurrence `(index, lastIndexAfter)`, exactly
the repeated-`exec` protocol the scanner drives.  A small concrete engine
`execWordModel`, covering the literal and word-boundary patterns the
default configuration produces, instantiates the abstraction where a
claim needs the behaviour of a specific compiled pattern.
-/

/-- A text is a JavaScript string viewed as its sequence of code units. -/
abbrev Text := List Char

/-- A half-open span `[start, end_)` over the text, as produced by the
scanner and the merger (interface `Slice` of `src/index.ts`; the optional
`matched` flag is absent on every slice these two stages handle). -/
structure Slice where
  start : Nat
  end_ : Nat
deriving DecidableEq, Repr

/-- A span as produced by the gap filler, where the `matched` flag is
always set. -/
structure FilledSlice where
  start : Nat
  end_ : Nat
  matched : Bool
deriving DecidableEq, Repr

/-- The `boundary` option value: `false`, `true`, `'start'` or `'end'`. -/
inductive Boundary where
  | bfalse
  | btrue
  | bstart
  | bend
deriving DecidableEq, Repr

/-- The configuration object of `slicing`: every field is optional.
`none` models an absent (`undefined`) field. -/
structure Options where
  escape : Option Bool
  boundary : Option Boundary
  caseSensitive : Option Bool
deriving DecidableEq, Repr

/-- JavaScript truthiness of an optional boolean field. -/
def jsTruthy : Option Bool → Bool
  | some b => b
  | none => false

/-- JavaScript truthiness of the optional `boundary` field: the values
`true`, `'start'` and `'end'` are truthy, `false` and `undefined` are
falsy. -/
def boundaryTruthy : Option Boundary → Bool
  | some Boundary.bfalse => false
  | some _ => true
  | none => false

/-- Characters the escaper treats as special, from the character class
of `escapeRegex` in `src/fns/index.ts`. -/
def isRegexSpecial (c : Char) : Bool :=
  c = '(' || c = ')' || c = '[' || c = ']' || c = '\x7b' || c = '\x7d' ||
  c = '/' || c = '*' || c = '+' || c = '?' || c = '.' || c = '\\' ||
  c = '^' || c = '$' || c = '|' || c = '-'

/-- The function `escapeRegex` from `src/fns/index.ts`: prefix every special character
with a backslash, leave everything else unchanged. -/
def escapeRegex (s : String) : String :=
  String.mk (s.toList.foldr (fun c acc => if isRegexSpecial c then '\\' :: c :: acc else c :: acc) [])

/-- JavaScript `String.prototype.trim`, modelled over the code-unit list
(leading and trailing whitespace removed). -/
def jsTrim (s : String) : String :=
  String.mk (((s.toList.dropWhile Char.isWhitespace).reverse.dropWhile Char.isWhitespace).reverse)

/-- The function `pattern` from `src/fns/index.ts`: wrap a word with word-boundary
anchors according to the boundary mode, returning it unchanged when the
mode is `false` or the trimmed word is empty. -/
def pattern (word : String) (boundary : Boundary) : String :=
  if jsTrim word = "" ∨ boundary = Boundary.bfalse then word
  else if boundary = Boundary.bstart then "\\b" ++ word ++ "\\w+"
  else if boundary = Boundary.bend then "\\w+" ++ word ++ "\\b"
  else if boundary = Boundary.btrue then "\\b" ++ word ++ "\\b"
  else word

/-- A compiled regular expression as the scanner sees it: its source
pattern and its `i` flag (the `g` flag is always set by the library and
is implicit in the repeated-scan protocol). -/
structure JsRegex where
  source : String
  ignoreCase : Bool
deriving DecidableEq, Repr

/-- The configuration branch of the matcher resolver in `slicing`
(`src/index.ts`): optionally escape the word, optionally apply the
boundary pattern builder, then compile with flags `'g'` or `'gi'`. -/
def buildRegex (o : Options) (word : String) : JsRegex :=
  let w1 := if jsTruthy o.escape then escapeRegex word else word
  let w2 :=
    match o.boundary with
    | some b => if b = Boundary.bfalse then w1 else pattern w1 b
    | none => w1
  ⟨w2, !jsTruthy o.caseSensitive⟩

/-- The third argument of `slicing`/`sliceText`: a configuration object
or a custom matcher factory returning a regex per word. -/
inductive OptionsOrMatch where
  | config (o : Options)
  | fn (f : String → JsRegex)

/-- The default value of the `options` parameter of `slicing`
(`src/index.ts`): used when the argument is omitted. -/
def defaultOptions : Options :=
  ⟨some true, some Boundary.btrue, some false⟩

/-- The matcher resolver: a custom function is used verbatim; a
configuration object goes through `buildRegex`; an omitted argument gets
the default configuration. -/
def resolveMatch : Option OptionsOrMatch → (String → JsRegex)
  | some (OptionsOrMatch.fn f) => f
  | some (OptionsOrMatch.config o) => fun word => buildRegex o word
  | none => fun word => buildRegex defaultOptions word

/-- The host pattern-matching engine, abstracted: given a compiled regex,
the text, and the current `lastIndex`, report the next occurrence as
`(index, lastIndexAfter)` or `none` when no occurrence remains. -/
abbrev Exec := JsRegex → Text → Nat → Option (Nat × Nat)

/-- A matcher already applied to its text: `lastIndex ↦ next occurrence`. -/
abbrev Matcher := Nat → Option (Nat × Nat)

/-- The repeated-matching loop of `slicing`: call the matcher, push the
span when it is non-empty (`end > start`), and advance the cursor — by
one extra unit on a zero-width occurrence.  `fuel` bounds the number of
iterations; the returned flag is `true` when the loop exited because the
matcher reported no further occurrence (rather than by exhausting fuel). -/
def scanLoop (m : Matcher) (fuel cursor : Nat) : List Slice × Bool :=
  match m cursor with
  | none => ([], true)
  | some (s, e) =>
    match fuel with
    | 0 => ([], false)
    | fuel' + 1 =>
      let r := scanLoop m fuel' (if s = e then e + 1 else e)
      (if s < e then ⟨s, e⟩ :: r.1 else r.1, r.2)

/-- Scan one word's compiled regex over the whole text, starting with
`lastIndex = 0`.  The fuel `text.length + 1` suffices for any matcher
whose occurrences lie at or after the cursor and inside the text. -/
def scanWord (exec : Exec) (text : Text) (r : JsRegex) : List Slice :=
  (scanLoop (exec r text) (text.length + 1) 0).1

/-- First-occurrence-order deduplication with an accumulator of already
seen words, modelling `Array.from(new Set(searchWords))`. -/
def dedupSeen (seen : List String) : List String → List String
  | [] => []
  | w :: ws => if w ∈ seen then dedupSeen seen ws else w :: dedupSeen (w :: seen) ws

/-- Model of `Array.from(new Set(searchWords))`: deduplicate, keeping the first
occurrence of each word in order. -/
def dedupFirst (ws : List String) : List String :=
  dedupSeen [] ws

/-- The term list the scanner actually iterates:
`Array.from(new Set(searchWords)).filter(word => !!word).map(word => word)`
— deduplicate, drop empty strings (the only falsy strings), identity map. -/
def termsOf (searchWords : List String) : List String :=
  (((dedupFirst searchWords).filter (fun w => w != "")).map (fun w => w))

/-- The scanner body once the matcher factory is resolved: reduce over
the prepared terms, appending each word's spans. -/
def slicingWith (exec : Exec) (text : Text) (mf : String → JsRegex)
    (searchWords : List String) : List Slice :=
  (termsOf searchWords).foldl (fun slices word => slices ++ scanWord exec text (mf word)) []

/-- The scanner `slicing` from `src/index.ts`: resolve the matcher from the third
argument and scan every surviving search word over the text. -/
def slicing (exec : Exec) (text : Text) (searchWords : List String)
    (options : Option OptionsOrMatch) : List Slice :=
  slicingWith exec text (resolveMatch options) searchWords

/-- Ordering of slices by start index, the comparator
`(a, b) => a.start - b.start` of `mergeOverlap`. -/
def sliceLE (a b : Slice) : Prop :=
  a.start ≤ b.start

instance : DecidableRel sliceLE := fun a b => Nat.decLe a.start b.start

instance : IsTotal Slice sliceLE := ⟨fun a b => Nat.le_total a.start b.start⟩

instance : IsTrans Slice sliceLE := ⟨fun _ _ _ h h' => Nat.le_trans h h'⟩

/-- Model of `slices.toSorted((a, b) => a.start - b.start)`: a stable sort by
start index. -/
def sortSlices (slices : List Slice) : List Slice :=
  List.insertionSort sliceLE slices

/-- The greedy coalescing loop of `mergeOverlap`, recursively: a touching
or overlapping next span (`next.start ≤ current.end`) extends the
accumulator's end to the maximum of the two ends; otherwise the
accumulator is flushed and the next span starts a new one; the final
accumulator is always flushed. -/
def mergeLoop (current : Slice) : List Slice → List Slice
  | [] => [current]
  | next :: rest =>
    if next.start ≤ current.end_ then
      mergeLoop ⟨current.start, max current.end_ next.end_⟩ rest
    else
      current :: mergeLoop next rest

/-- The merger `mergeOverlap` from `src/index.ts`, transcribing the `for` loop with
its `merged` array and `current` accumulator as a left fold over the
tail of the sorted list. -/
def mergeOverlap (slices : List Slice) : List Slice :=
  match sortSlices slices with
  | [] => []
  | current :: rest =>
    let p := rest.foldl
      (fun (acc : List Slice × Slice) next =>
        if next.start ≤ acc.2.end_ then
          (acc.1, ⟨acc.2.start, max acc.2.end_ next.end_⟩)
        else
          (acc.1 ++ [acc.2], next))
      ([], current)
    p.1 ++ [p.2]

/-- The greedy merge described claim-side: sort ascending by start, then
coalesce with `mergeLoop`. -/
def mergeSpec (slices : List Slice) : List Slice :=
  match sortSlices slices with
  | [] => []
  | current :: rest => mergeLoop current rest

/-- The guarded `push` of `fillSliceGaps`: emit the span only when it is
non-empty. -/
def fillPiece (s e : Nat) (m : Bool) : List FilledSlice :=
  if 0 < e - s then [⟨s, e, m⟩] else []

/-- The walk of `fillSliceGaps`: for each span push the unmatched gap
before it and the span itself (each only if non-empty), advance the
cursor to the span's end, and finally push the unmatched tail. -/
def fillLoop (textLength : Nat) : Nat → List Slice → List FilledSlice
  | startIndex, [] => fillPiece startIndex textLength false
  | startIndex, sl :: rest =>
    fillPiece startIndex sl.start false ++
      (fillPiece sl.start sl.end_ true ++ fillLoop textLength sl.end_ rest)

/-- The gap filler `fillSliceGaps` from `src/index.ts`. -/
def fillSliceGaps (slices : List Slice) (textLength : Nat) : List FilledSlice :=
  if textLength = 0 then []
  else
    match slices with
    | [] => fillPiece 0 textLength false
    | _ => fillLoop textLength 0 slices

/-- The facade `sliceText` from `src/index.ts`: the pipeline composition. -/
def sliceText (exec : Exec) (text : Text) (searchWords : List String)
    (options : Option OptionsOrMatch) : List FilledSlice :=
  fillSliceGaps (mergeOverlap (slicing exec text searchWords options)) text.length

/-- JavaScript `text.slice(start, end)` for non-negative indices
(clamping to the text's length, empty when `end ≤ start`). -/
def jsSlice (t : Text) (s e : Nat) : Text :=
  (t.drop s).take (e - s)

/-- Concatenation of the text fragments selected by a list of spans, in
order. -/
def joinSlices (t : Text) : List FilledSlice → Text
  | [] => []
  | sl :: rest => jsSlice t sl.start sl.end_ ++ joinSlices t rest

/-- Word characters as the host engine's `\w` (ASCII model:
alphanumerics and underscore). -/
def isWordChar (c : Char) : Bool :=
  c.isAlphanum || c = '_'

/-- Whether a `\b` word-boundary assertion holds at position `p` of the
text: exactly one of the adjacent positions holds a word character. -/
def wordB (t : Text) (p : Nat) : Bool :=
  let before :=
    match p with
    | 0 => false
    | q + 1 =>
      match t.get? q with
      | some ch => isWordChar ch
      | none => false
  let after :=
    match t.get? p with
    | some ch => isWordChar ch
    | none => false
  before != after

/-- Case folding used by the model engine under the `i` flag. -/
def charEq (ci : Bool) (a b : Char) : Bool :=
  if ci then a.toLower = b.toLower else a = b

/-- Whether the literal `lit` occurs at position `s` of the text. -/
def litMatchAt (t : Text) (lit : List Char) (s : Nat) (ci : Bool) : Bool :=
  decide (s + lit.length ≤ t.length) &&
    (((t.drop s).take lit.length).zip lit).all (fun p => charEq ci p.1 p.2)

/-- First position at or after `c` satisfying `p`, probing `fuel`
positions. -/
def firstHit (p : Nat → Bool) : Nat → Nat → Option Nat
  | 0, _ => none
  | fuel + 1, c => if p c then some c else firstHit p fuel (c + 1)

/-- Strip a leading and a trailing `\b` from a pattern, when both are
present. -/
def stripBoundaryAnchors (cs : List Char) : Option (List Char) :=
  if 4 ≤ cs.length ∧ cs.take 2 = ['\\', 'b'] ∧ cs.drop (cs.length - 2) = ['\\', 'b'] then
    some ((cs.drop 2).take (cs.length - 4))
  else
    none

/-- A concrete model of the host regular-expression engine on the
fragment the default pipeline emits: a plain literal pattern, or a
literal wrapped in `\b … \b` word-boundary anchors.  Any other pattern
(one containing a backslash outside that shape) reports no occurrence.
Search starts at the cursor; an occurrence is the literal's position and
its end, checked case-insensitively under the `i` flag. -/
def execWordModel : Exec := fun r t c =>
  let cs := r.source.toList
  let parsed : Option (Bool × List Char) :=
    match stripBoundaryAnchors cs with
    | some mid => if mid.contains '\\' then none else some (true, mid)
    | none => if cs.contains '\\' then none else some (false, cs)
  match parsed with
  | none => none
  | some (needB, lit) =>
    (firstHit
        (fun s =>
          litMatchAt t lit s r.ignoreCase &&
            (!needB || (wordB t s && wordB t (s + lit.length))))
        (t.length + 1 - c) c).map
      (fun s => (s, s + lit.length))


/-- The fold of `mergeOverlap` flushes exactly like the recursive greedy
loop, for any already-accumulated prefix. -/
theorem mergeFold_eq_mergeLoop (rest : List Slice) :
    ∀ (acc : List Slice) (current : Slice),
      (rest.foldl
        (fun (acc : List Slice × Slice) next =>
          if next.start ≤ acc.2.end_ then
            (acc.1, ⟨acc.2.start, max acc.2.end_ next.end_⟩)
          else
            (acc.1 ++ [acc.2], next))
        (acc, current)).1 ++
      [(rest.foldl
        (fun (acc : List Slice × Slice) next =>
          if next.start ≤ acc.2.end_ then
            (acc.1, ⟨acc.2.start, max acc.2.end_ next.end_⟩)
          else
            (acc.1 ++ [acc.2], next))
        (acc, current)).2] = acc ++ mergeLoop current rest := by
  induction rest with
  | nil => intro acc current; rfl
  | cons next rest ih =>
    intro acc current
    by_cases h : next.start ≤ current.end_
    · simp only [List.foldl_cons, h, if_pos, mergeLoop]
      exact ih acc ⟨current.start, max current.end_ next.end_⟩
    · simp only [List.foldl_cons, h, if_neg, not_false_iff, mergeLoop, if_neg h]
      rw [ih (acc ++ [current]) next, List.append_assoc]
      rfl

/-- The fold form of `mergeOverlap` agrees with its greedy specification `mergeSpec`. -/
theorem mergeOverlap_eq_mergeSpec (slices : List Slice) :
    mergeOverlap slices = mergeSpec slices := by
  unfold mergeOverlap mergeSpec
  cases h : sortSlices slices with
  | nil => rfl
  | cons current rest =>
    simpa using mergeFold_eq_mergeLoop rest [] current

/-- C1: for every engine, text, term list and options value, `sliceText`
equals `fillSliceGaps (mergeOverlap (slicing text terms options))
(length text)` — the facade is a pure composition with no behaviour of
its own. -/
theorem sliceText_is_composition (exec : Exec) (text : Text)
    (searchWords : List String) (options : Option OptionsOrMatch) :
    sliceText exec text searchWords options =
      fillSliceGaps (mergeOverlap (slicing exec text searchWords options)) text.length := by
  rfl

/-- C2, counterexample: a configuration object with all fields omitted
does not behave like the default configuration.  With `{}` the term is
neither escaped nor boundary-anchored: the resolved regex for `"a+"` is
the raw `a+`, not `\ba\+\b`; and on the text `"testing"` with term
`"test"` the two configurations produce different scanner outputs under
the model engine (a match `[0,4)` for `{}`, no match for the default
whole-word configuration). -/
theorem options_empty_object_counterexample :
    buildRegex ⟨none, none, none⟩ "a+" = ⟨"a+", true⟩ ∧
    buildRegex ⟨some true, some Boundary.btrue, some false⟩ "a+" = ⟨"\\ba\\+\\b", true⟩ ∧
    (⟨"a+", true⟩ : JsRegex) ≠ ⟨"\\ba\\+\\b", true⟩ ∧
    slicing execWordModel "testing".toList ["test"]
        (some (OptionsOrMatch.config ⟨none, none, none⟩)) = [⟨0, 4⟩] ∧
    slicing execWordModel "testing".toList ["test"]
        (some (OptionsOrMatch.config ⟨some true, some Boundary.btrue, some false⟩)) = [] ∧
    ([⟨0, 4⟩] : List Slice) ≠ [] := by
  refine ⟨by decide, by decide, by decide, by decide, by decide, by decide⟩

/-- C2, amended: the documented defaults `{escape: true, boundary: true,
caseSensitive: false}` apply only when the options argument is omitted
entirely; a configuration object with all fields omitted instead behaves
like `{escape: false, boundary: false, caseSensitive: false}` (term used
raw, no boundary anchoring, case-insensitive matching). -/
theorem options_empty_object_amended (exec : Exec) (text : Text)
    (searchWords : List String) :
    slicing exec text searchWords (some (OptionsOrMatch.config ⟨none, none, none⟩)) =
      slicing exec text searchWords
        (some (OptionsOrMatch.config ⟨some false, some Boundary.bfalse, some false⟩)) ∧
    slicing exec text searchWords none =
      slicing exec text searchWords (some (OptionsOrMatch.config defaultOptions)) := by
  constructor
  · show slicingWith exec text (fun w => buildRegex ⟨none, none, none⟩ w) searchWords =
      slicingWith exec text
        (fun w => buildRegex ⟨some false, some Boundary.bfalse, some false⟩ w) searchWords
    have h : (fun w => buildRegex ⟨none, none, none⟩ w) =
        (fun w => buildRegex ⟨some false, some Boundary.bfalse, some false⟩ w) := by
      funext w
      simp only [buildRegex, jsTruthy, boundaryTruthy]
      rfl
    rw [h]
  · rfl

/-- C4: `mergeOverlap` sorts ascending by start and coalesces greedily
(extend the accumulator while `next.start ≤ current.end`, else flush,
final accumulator flushed); empty input gives empty output, and
`mergeOverlap [(0,5), (3,8), (10,15)] = [(0,8), (10,15)]`. -/
theorem mergeOverlap_greedy (slices : List Slice) :
    mergeOverlap slices = mergeSpec slices ∧
    mergeOverlap [] = [] ∧
    mergeOverlap [⟨0, 5⟩, ⟨3, 8⟩, ⟨10, 15⟩] = [⟨0, 8⟩, ⟨10, 15⟩] := by
  refine ⟨mergeOverlap_eq_mergeSpec slices, by decide, by decide⟩

/-- Membership of a doubled index in the closed doubled interval of a
span: `[2·start, 2·end]`.  Doubling separates exactly-adjacent zero-width
spans while keeping spans that touch under half-open semantics
connected, so connectivity of this coverage mirrors the merge rule
`next.start ≤ current.end`. -/
def inSpan (sl : Slice) (n : Nat) : Prop :=
  2 * sl.start ≤ n ∧ n ≤ 2 * sl.end_

/-- Doubled coverage of a list of spans. -/
def covered (l : List Slice) (n : Nat) : Prop :=
  ∃ sl ∈ l, inSpan sl n

/-- A separated list of spans: each well-formed, pairwise in strictly
increasing, non-touching order. -/
def SepList (l : List Slice) : Prop :=
  (∀ sl ∈ l, sl.start ≤ sl.end_) ∧ l.Pairwise (fun a b => a.end_ < b.start)

theorem covered_cons (a : Slice) (l : List Slice) (n : Nat) :
    covered (a :: l) n ↔ inSpan a n ∨ covered l n := by
  simp [covered, List.mem_cons, or_and_right, exists_or, exists_eq_left]

theorem covered_perm {l l' : List Slice} (h : l.Perm l') (n : Nat) :
    covered l n ↔ covered l' n := by
  constructor
  · rintro ⟨sl, hm, hp⟩; exact ⟨sl, h.mem_iff.mp hm, hp⟩
  · rintro ⟨sl, hm, hp⟩; exact ⟨sl, h.mem_iff.mpr hm, hp⟩

/-- The greedy loop of the merger, on a start-sorted well-formed input,
produces well-formed spans starting at or after the accumulator's start,
pairwise separated, with exactly the coverage of its input. -/
theorem mergeLoop_props :
    ∀ (rest : List Slice) (current : Slice),
      current.start ≤ current.end_ →
      (∀ sl ∈ rest, sl.start ≤ sl.end_) →
      rest.Sorted sliceLE →
      (∀ sl ∈ rest, current.start ≤ sl.start) →
      (∀ sl ∈ mergeLoop current rest, sl.start ≤ sl.end_ ∧ current.start ≤ sl.start) ∧
      (mergeLoop current rest).Pairwise (fun a b => a.end_ < b.start) ∧
      (∀ n, covered (mergeLoop current rest) n ↔ covered (current :: rest) n) := by
  intro rest
  induction rest with
  | nil =>
    intro current hwf _ _ _
    refine ⟨?_, ?_, fun n => Iff.rfl⟩
    · intro sl hm
      rcases List.mem_singleton.mp hm with rfl
      exact ⟨hwf, Nat.le_refl _⟩
    · exact List.pairwise_singleton _ _
  | cons next rest ih =>
    intro current hwf hwfs hsort hstarts
    have hwfnext : next.start ≤ next.end_ := hwfs next (List.mem_cons_self _ _)
    have hwfrest : ∀ sl ∈ rest, sl.start ≤ sl.end_ :=
      fun sl hm => hwfs sl (List.mem_cons_of_mem _ hm)
    have hsort' := List.sorted_cons.mp hsort
    have hcurnext : current.start ≤ next.start := hstarts next (List.mem_cons_self _ _)
    by_cases h : next.start ≤ current.end_
    · have hprops := ih ⟨current.start, max current.end_ next.end_⟩
        (Nat.le_trans hwf (Nat.le_max_left _ _)) hwfrest hsort'.2
        (fun sl hm => hstarts sl (List.mem_cons_of_mem _ hm))
      simp only [mergeLoop, if_pos h]
      refine ⟨hprops.1, hprops.2.1, fun n => (hprops.2.2 n).trans ?_⟩
      rw [covered_cons, covered_cons, covered_cons]
      have hspan : inSpan ⟨current.start, max current.end_ next.end_⟩ n ↔
          inSpan current n ∨ inSpan next n := by
        simp only [inSpan]
        omega
      rw [hspan, or_assoc]
    · have hnextstarts : ∀ sl ∈ rest, next.start ≤ sl.start := fun sl hm => hsort'.1 sl hm
      have hprops := ih next hwfnext hwfrest hsort'.2 hnextstarts
      simp only [mergeLoop, if_neg h]
      have hlt : current.end_ < next.start := Nat.lt_of_not_le h
      refine ⟨?_, ?_, ?_⟩
      · intro sl hm
        rcases List.mem_cons.mp hm with rfl | hm'
        · exact ⟨hwf, Nat.le_refl _⟩
        · exact ⟨(hprops.1 sl hm').1, Nat.le_trans hcurnext (hprops.1 sl hm').2⟩
      · refine List.pairwise_cons.mpr ⟨?_, hprops.2.1⟩
        intro y hy
        exact Nat.lt_of_lt_of_le hlt (hprops.1 y hy).2
      · intro n
        rw [covered_cons, covered_cons, covered_cons, hprops.2.2 n, covered_cons]

/-- Two separated span lists with the same doubled coverage are equal:
the coverage determines the decomposition into maximal intervals. -/
theorem sep_unique :
    ∀ (l l' : List Slice), SepList l → SepList l' →
      (∀ n, covered l n ↔ covered l' n) → l = l' := by
  intro l
  induction l with
  | nil =>
    intro l' _ hsep' hcov
    cases l' with
    | nil => rfl
    | cons b t' =>
      have hb : covered (b :: t') (2 * b.start) :=
        ⟨b, List.mem_cons_self _ _, Nat.le_refl _,
          Nat.mul_le_mul_left 2 (hsep'.1 b (List.mem_cons_self _ _))⟩
      rcases (hcov _).mpr hb with ⟨sl, hm, _⟩
      exact absurd hm (List.not_mem_nil sl)
  | cons a t ih =>
    intro l' hsep hsep' hcov
    cases l' with
    | nil =>
      have ha : covered (a :: t) (2 * a.start) :=
        ⟨a, List.mem_cons_self _ _, Nat.le_refl _,
          Nat.mul_le_mul_left 2 (hsep.1 a (List.mem_cons_self _ _))⟩
      rcases (hcov _).mp ha with ⟨sl, hm, _⟩
      exact absurd hm (List.not_mem_nil sl)
    | cons b t' =>
      have hwa : a.start ≤ a.end_ := hsep.1 a (List.mem_cons_self _ _)
      have hwb : b.start ≤ b.end_ := hsep'.1 b (List.mem_cons_self _ _)
      have hpairA : ∀ sl ∈ t, a.end_ < sl.start :=
        (List.pairwise_cons.mp hsep.2).1
      have hpairB : ∀ sl ∈ t', b.end_ < sl.start :=
        (List.pairwise_cons.mp hsep'.2).1
      have hminA : ∀ sl ∈ a :: t, a.start ≤ sl.start := by
        intro sl hm
        rcases List.mem_cons.mp hm with rfl | hm'
        · exact Nat.le_refl _
        · exact Nat.le_of_lt (Nat.lt_of_le_of_lt hwa (hpairA sl hm'))
      have hminB : ∀ sl ∈ b :: t', b.start ≤ sl.start := by
        intro sl hm
        rcases List.mem_cons.mp hm with rfl | hm'
        · exact Nat.le_refl _
        · exact Nat.le_of_lt (Nat.lt_of_le_of_lt hwb (hpairB sl hm'))
      have hab : a.start = b.start := by
        have h1 : covered (b :: t') (2 * a.start) :=
          (hcov _).mp ⟨a, List.mem_cons_self _ _, Nat.le_refl _, by omega⟩
        have h2 : covered (a :: t) (2 * b.start) :=
          (hcov _).mpr ⟨b, List.mem_cons_self _ _, Nat.le_refl _, by omega⟩
        rcases h1 with ⟨s1, hm1, hin1⟩
        rcases h2 with ⟨s2, hm2, hin2⟩
        have hba := hminB s1 hm1
        have hab := hminA s2 hm2
        simp only [inSpan] at hin1 hin2
        omega
      have hae : a.end_ = b.end_ := by
        by_contra hne
        rcases Nat.lt_or_ge a.end_ b.end_ with hlt | hge
        · have hmem : covered (a :: t) (2 * a.end_ + 1) :=
            (hcov _).mpr ⟨b, List.mem_cons_self _ _, by simp only [inSpan]; omega⟩
          rcases hmem with ⟨s, hm, hin⟩
          simp only [inSpan] at hin
          rcases List.mem_cons.mp hm with rfl | hm'
          · omega
          · have := hpairA s hm'
            omega
        · have hlt' : b.end_ < a.end_ := Nat.lt_of_le_of_ne hge (fun h => hne h.symm)
          have hmem : covered (b :: t') (2 * b.end_ + 1) :=
            (hcov _).mp ⟨a, List.mem_cons_self _ _, by simp only [inSpan]; omega⟩
          rcases hmem with ⟨s, hm, hin⟩
          simp only [inSpan] at hin
          rcases List.mem_cons.mp hm with rfl | hm'
          · omega
          · have := hpairB s hm'
            omega
      have htail : ∀ n, covered t n ↔ covered t' n := by
        intro n
        constructor
        · rintro ⟨s, hm, hin⟩
          have hgap := hpairA s hm
          simp only [inSpan] at hin
          have hn : covered (b :: t') n :=
            (hcov n).mp ⟨s, List.mem_cons_of_mem _ hm, hin⟩
          rcases hn with ⟨s', hm', hin'⟩
          rcases List.mem_cons.mp hm' with rfl | hm'' 
          · simp only [inSpan] at hin'
            omega
          · exact ⟨s', hm'', hin'⟩
        · rintro ⟨s, hm, hin⟩
          have hgap := hpairB s hm
          simp only [inSpan] at hin
          have hn : covered (a :: t) n :=
            (hcov n).mpr ⟨s, List.mem_cons_of_mem _ hm, hin⟩
          rcases hn with ⟨s', hm', hin'⟩
          rcases List.mem_cons.mp hm' with rfl | hm'' 
          · simp only [inSpan] at hin'
            omega
          · exact ⟨s', hm'', hin'⟩
      have hsepT : SepList t :=
        ⟨fun sl hm => hsep.1 sl (List.mem_cons_of_mem _ hm),
          (List.pairwise_cons.mp hsep.2).2⟩
      have hsepT' : SepList t' :=
        ⟨fun sl hm => hsep'.1 sl (List.mem_cons_of_mem _ hm),
          (List.pairwise_cons.mp hsep'.2).2⟩
      have hts := ih t' hsepT hsepT' htail
      have hhead : a = b := by
        rcases a with ⟨as, ae⟩
        rcases b with ⟨bs, be⟩
        simp only [Slice.mk.injEq]
        exact ⟨hab, hae⟩
      rw [hhead, hts]

/-- On well-formed input, `mergeOverlap` yields a separated list with
exactly the input's coverage. -/
theorem mergeOverlap_sep (l : List Slice) (hwf : ∀ sl ∈ l, sl.start ≤ sl.end_) :
    SepList (mergeOverlap l) ∧ (∀ n, covered (mergeOverlap l) n ↔ covered l n) := by
  rw [mergeOverlap_eq_mergeSpec]
  unfold mergeSpec
  have hperm : (sortSlices l).Perm l := List.perm_insertionSort sliceLE l
  have hsort : (sortSlices l).Sorted sliceLE := List.sorted_insertionSort sliceLE l
  cases h : sortSlices l with
  | nil =>
    have : l = [] := by
      have := hperm
      rw [h] at this
      exact this.symm.eq_nil
    subst this
    exact ⟨⟨by simp, List.Pairwise.nil⟩, fun n => Iff.rfl⟩
  | cons current rest =>
    rw [h] at hperm hsort
    have hwf' : ∀ sl ∈ current :: rest, sl.start ≤ sl.end_ :=
      fun sl hm => hwf sl (hperm.mem_iff.mp hm)
    have hsort' := List.sorted_cons.mp hsort
    have hprops := mergeLoop_props rest current
      (hwf' current (List.mem_cons_self _ _))
      (fun sl hm => hwf' sl (List.mem_cons_of_mem _ hm))
      hsort'.2 (fun sl hm => hsort'.1 sl hm)
    exact ⟨⟨fun sl hm => (hprops.1 sl hm).1, hprops.2.1⟩,
      fun n => (hprops.2.2 n).trans (covered_perm hperm n)⟩

/-- C5: for every list of well-formed spans, `mergeOverlap` is
idempotent, invariant under permutation of the input, and invariant
under duplicating a span already present. -/
theorem mergeOverlap_multiset (S Sp : List Slice) (x : Slice)
    (hwf : ∀ sl ∈ S, sl.start ≤ sl.end_) :
    mergeOverlap (mergeOverlap S) = mergeOverlap S ∧
    (S.Perm Sp → mergeOverlap Sp = mergeOverlap S) ∧
    (x ∈ S → mergeOverlap (x :: S) = mergeOverlap S) := by
  obtain ⟨hsepS, hcovS⟩ := mergeOverlap_sep S hwf
  refine ⟨?_, ?_, ?_⟩
  · obtain ⟨hsepM, hcovM⟩ := mergeOverlap_sep (mergeOverlap S) hsepS.1
    exact sep_unique _ _ hsepM hsepS hcovM
  · intro hperm
    have hwfP : ∀ sl ∈ Sp, sl.start ≤ sl.end_ :=
      fun sl hm => hwf sl (hperm.mem_iff.mpr hm)
    obtain ⟨hsepP, hcovP⟩ := mergeOverlap_sep Sp hwfP
    refine sep_unique _ _ hsepP hsepS (fun n => ?_)
    exact (hcovP n).trans ((covered_perm hperm.symm n).trans (hcovS n).symm)
  · intro hx
    have hwfD : ∀ sl ∈ x :: S, sl.start ≤ sl.end_ := by
      intro sl hm
      rcases List.mem_cons.mp hm with rfl | hm'
      · exact hwf sl hx
      · exact hwf sl hm'
    obtain ⟨hsepD, hcovD⟩ := mergeOverlap_sep (x :: S) hwfD
    refine sep_unique _ _ hsepD hsepS (fun n => ?_)
    refine (hcovD n).trans (Iff.trans ?_ (hcovS n).symm)
    rw [covered_cons]
    constructor
    · rintro (hin | hc)
      · exact ⟨x, hx, hin⟩
      · exact hc
    · exact Or.inr

/-- Witness for C5 at a concrete well-formed multiset. -/
theorem mergeOverlap_multiset_witness :
    mergeOverlap (mergeOverlap [⟨0, 5⟩, ⟨3, 8⟩]) = mergeOverlap [⟨0, 5⟩, ⟨3, 8⟩] ∧
    mergeOverlap [⟨3, 8⟩, ⟨0, 5⟩] = mergeOverlap [⟨0, 5⟩, ⟨3, 8⟩] ∧
    mergeOverlap [⟨0, 5⟩, ⟨0, 5⟩, ⟨3, 8⟩] = mergeOverlap [⟨0, 5⟩, ⟨3, 8⟩] := by
  have h := mergeOverlap_multiset [⟨0, 5⟩, ⟨3, 8⟩] [⟨3, 8⟩, ⟨0, 5⟩] ⟨0, 5⟩ (by decide)
  exact ⟨h.1, h.2.1 (by decide), h.2.2 (by decide)⟩

/-- A sorted, non-overlapping, well-formed span sequence lying between a
lower cursor and the text length: each span starts at or after the
cursor, is well-formed, ends within the text, and the next span starts
at or after its end. -/
def chainBounded (cursor textLength : Nat) : List Slice → Bool
  | [] => true
  | sl :: rest =>
    decide (cursor ≤ sl.start) && decide (sl.start ≤ sl.end_) &&
      decide (sl.end_ ≤ textLength) && chainBounded sl.end_ textLength rest

/-- An exact partition of `[a, textLength)` into non-empty contiguous
pieces. -/
inductive PartitionFrom (textLength : Nat) : Nat → List FilledSlice → Prop where
  | nil : PartitionFrom textLength textLength []
  | cons (a : Nat) (p : FilledSlice) (out : List FilledSlice) :
      p.start = a → p.start < p.end_ → PartitionFrom textLength p.end_ out →
      PartitionFrom textLength a (p :: out)

theorem PartitionFrom.le {N a : Nat} {out : List FilledSlice}
    (h : PartitionFrom N a out) : a ≤ N := by
  induction h with
  | nil => exact Nat.le_refl _
  | cons a p out hs hlt _ ih => omega

/-- The filler's walk produces an exact partition of `[cursor, N)` from
any chain-bounded input. -/
theorem fillLoop_partition (N : Nat) :
    ∀ (l : List Slice) (cursor : Nat),
      chainBounded cursor N l = true → cursor ≤ N →
      PartitionFrom N cursor (fillLoop N cursor l) := by
  intro l
  induction l with
  | nil =>
    intro cursor _ hle
    simp only [fillLoop, fillPiece]
    by_cases h : 0 < N - cursor
    · rw [if_pos h]
      exact PartitionFrom.cons cursor ⟨cursor, N, false⟩ [] rfl
        (show cursor < N by omega) PartitionFrom.nil
    · rw [if_neg h]
      have : cursor = N := by omega
      rw [this]
      exact PartitionFrom.nil
  | cons sl rest ih =>
    intro cursor hchain hle
    simp only [chainBounded, Bool.and_eq_true, decide_eq_true_eq] at hchain
    obtain ⟨⟨⟨h1, h2⟩, h3⟩, h4⟩ := hchain
    have hrec : PartitionFrom N sl.end_ (fillLoop N sl.end_ rest) := ih sl.end_ h4 h3
    have hmid : PartitionFrom N sl.start
        (fillPiece sl.start sl.end_ true ++ fillLoop N sl.end_ rest) := by
      by_cases h : 0 < sl.end_ - sl.start
      · simp only [fillPiece, if_pos h, List.singleton_append]
        exact PartitionFrom.cons sl.start ⟨sl.start, sl.end_, true⟩ _ rfl
          (show sl.start < sl.end_ by omega) hrec
      · simp only [fillPiece, if_neg h, List.nil_append]
        have : sl.start = sl.end_ := by omega
        rw [this]
        exact hrec
    simp only [fillLoop]
    by_cases h : 0 < sl.start - cursor
    · simp only [fillPiece, if_pos h, List.singleton_append]
      exact PartitionFrom.cons cursor ⟨cursor, sl.start, false⟩ _ rfl
        (show cursor < sl.start by omega) hmid
    · simp only [fillPiece, if_neg h, List.nil_append]
      have : cursor = sl.start := by omega
      rw [this]
      exact hmid

theorem PartitionFrom.sum {N a : Nat} {out : List FilledSlice}
    (h : PartitionFrom N a out) :
    (out.map (fun p => p.end_ - p.start)).sum = N - a := by
  induction h with
  | nil => simp
  | cons a p out hs hlt hrec ih =>
    have := hrec.le
    simp only [List.map_cons, List.sum_cons, ih]
    omega

theorem PartitionFrom.contiguous {N a : Nat} {out : List FilledSlice}
    (h : PartitionFrom N a out) :
    out.Chain' (fun x y => x.end_ = y.start) := by
  induction h with
  | nil => exact List.chain'_nil
  | cons a p out hs hlt hrec ih =>
    cases hrec with
    | nil => exact List.chain'_singleton _
    | cons b q out' hq hql hrec' =>
      exact List.Chain'.cons (by rw [hq]) ih

/-- For a non-zero text length, `fillSliceGaps` is the filler's walk from
cursor `0` (the empty-input branch computes the same value). -/
theorem fillSliceGaps_eq_fillLoop (slices : List Slice) (N : Nat) (h : N ≠ 0) :
    fillSliceGaps slices N = fillLoop N 0 slices := by
  unfold fillSliceGaps
  rw [if_neg h]
  cases slices with
  | nil => rfl
  | cons sl rest => rfl

/-- C3: `fillSliceGaps` returns `[]` when the text length is `0` (even on
non-empty input); returns the single unmatched span `[0, N)` on empty
input with `N > 0`; and on a sorted, non-overlapping span sequence inside
`[0, N)` it returns a total contiguous partition: the span lengths sum to
`N` and consecutive output spans are contiguous. -/
theorem fillSliceGaps_total (spans : List Slice) (N : Nat) :
    fillSliceGaps spans 0 = [] ∧
    (0 < N → fillSliceGaps [] N = [⟨0, N, false⟩]) ∧
    (0 < N → chainBounded 0 N spans = true →
      ((fillSliceGaps spans N).map (fun p => p.end_ - p.start)).sum = N ∧
      (fillSliceGaps spans N).Chain' (fun x y => x.end_ = y.start)) := by
  refine ⟨rfl, ?_, ?_⟩
  · intro hN
    simp only [fillSliceGaps, if_neg (Nat.pos_iff_ne_zero.mp hN), fillPiece]
    rw [if_pos (by omega)]
  · intro hN hchain
    rw [fillSliceGaps_eq_fillLoop spans N (Nat.pos_iff_ne_zero.mp hN)]
    have hpart := fillLoop_partition N spans 0 hchain (Nat.zero_le _)
    exact ⟨by simpa using hpart.sum, hpart.contiguous⟩

/-- Witness for C3 at a concrete input. -/
theorem fillSliceGaps_total_witness :
    fillSliceGaps [⟨1, 2⟩] 0 = [] ∧
    fillSliceGaps [] 3 = [⟨0, 3, false⟩] ∧
    ((fillSliceGaps [⟨1, 2⟩] 3).map (fun p => p.end_ - p.start)).sum = 3 ∧
    (fillSliceGaps [⟨1, 2⟩] 3).Chain' (fun x y => x.end_ = y.start) := by
  obtain ⟨h1, h2, h3⟩ := fillSliceGaps_total [⟨1, 2⟩] 3
  exact ⟨h1, h2 (by decide), h3 (by decide) (by decide)⟩

/-- A matcher is valid for a text of length `N` when every reported
occurrence starts at or after the cursor and lies inside the text:
`cursor ≤ start ≤ end ≤ N`, the contract of repeated `exec` on a global
regex. -/
def ValidMatcher (m : Matcher) (N : Nat) : Prop :=
  ∀ c s e, m c = some (s, e) → c ≤ s ∧ s ≤ e ∧ e ≤ N

/-- An engine is valid when every matcher it yields is valid for its
text. -/
def ValidExec (exec : Exec) : Prop :=
  ∀ r t c s e, exec r t c = some (s, e) → c ≤ s ∧ s ≤ e ∧ e ≤ t.length


theorem scanLoop_none (m : Matcher) (fuel cursor : Nat) (h : m cursor = none) :
    scanLoop m fuel cursor = ([], true) := by
  conv_lhs => rw [scanLoop.eq_def]
  rw [h]

theorem scanLoop_fuel_zero (m : Matcher) (cursor s e : Nat)
    (h : m cursor = some (s, e)) : scanLoop m 0 cursor = ([], false) := by
  conv_lhs => rw [scanLoop.eq_def]
  rw [h]

theorem scanLoop_fst_succ (m : Matcher) (fuel cursor s e : Nat)
    (h : m cursor = some (s, e)) :
    (scanLoop m (fuel + 1) cursor).1 =
      if s < e then
        ⟨s, e⟩ :: (scanLoop m fuel (if s = e then e + 1 else e)).1
      else
        (scanLoop m fuel (if s = e then e + 1 else e)).1 := by
  conv_lhs => rw [scanLoop.eq_def]
  rw [h]

theorem scanLoop_snd_succ (m : Matcher) (fuel cursor s e : Nat)
    (h : m cursor = some (s, e)) :
    (scanLoop m (fuel + 1) cursor).2 =
      (scanLoop m fuel (if s = e then e + 1 else e)).2 := by
  conv_lhs => rw [scanLoop.eq_def]
  rw [h]

/-- C6: for any valid matcher over a length-`N` text, the scanner's
repeated-matching loop terminates — with fuel covering the remaining
positions it always exits because the matcher is exhausted, never by
running out of fuel — and a zero-width occurrence emits no span while
advancing the cursor by one unit past it. -/
theorem scanLoop_terminates (m : Matcher) (N : Nat) (hm : ValidMatcher m N) :
    (∀ fuel cursor, N + 1 ≤ fuel + cursor → (scanLoop m fuel cursor).2 = true) ∧
    (∀ fuel cursor s, m cursor = some (s, s) →
      scanLoop m (fuel + 1) cursor = scanLoop m fuel (s + 1)) := by
  constructor
  · intro fuel
    induction fuel with
    | zero =>
      intro cursor hc
      rcases h : m cursor with _ | ⟨s, e⟩
      · rw [scanLoop_none m 0 cursor h]
      · rcases hm cursor s e h with ⟨h1, h2, h3⟩
        exact absurd hc (by omega)
    | succ fuel ih =>
      intro cursor hc
      rcases h : m cursor with _ | ⟨s, e⟩
      · rw [scanLoop_none m (fuel + 1) cursor h]
      · rcases hm cursor s e h with ⟨h1, h2, h3⟩
        rw [scanLoop_snd_succ m fuel cursor s e h]
        apply ih
        by_cases hse : s = e
        · rw [if_pos hse]; omega
        · rw [if_neg hse]; omega
  · intro fuel cursor s h
    have h1 := scanLoop_fst_succ m fuel cursor s s h
    have h2 := scanLoop_snd_succ m fuel cursor s s h
    rw [if_neg (Nat.lt_irrefl s), if_pos rfl] at h1
    rw [if_pos rfl] at h2
    exact Prod.ext h1 h2

/-- Witness for C6 with the exhausted matcher on an empty text. -/
theorem scanLoop_terminates_witness :
    (scanLoop (fun _ => none) 1 0).2 = true :=
  (scanLoop_terminates (fun _ => none) 0 (fun _ _ _ h => nomatch h)).1 1 0 (by omega)

/-- Spans emitted by the scanner's loop are never zero-length: the loop
pushes only when `end > start`. -/
theorem scanLoop_strict (m : Matcher) :
    ∀ fuel cursor sl, sl ∈ (scanLoop m fuel cursor).1 → sl.start < sl.end_ := by
  intro fuel
  induction fuel with
  | zero =>
    intro cursor sl hmem
    rcases h : m cursor with _ | ⟨s, e⟩
    · rw [scanLoop_none m 0 cursor h] at hmem
      exact absurd hmem (List.not_mem_nil sl)
    · rw [scanLoop_fuel_zero m cursor s e h] at hmem
      exact absurd hmem (List.not_mem_nil sl)
  | succ fuel ih =>
    intro cursor sl hmem
    rcases h : m cursor with _ | ⟨s, e⟩
    · rw [scanLoop_none m (fuel + 1) cursor h] at hmem
      exact absurd hmem (List.not_mem_nil sl)
    · rw [scanLoop_fst_succ m fuel cursor s e h] at hmem
      by_cases hse : s < e
      · rw [if_pos hse] at hmem
        rcases List.mem_cons.mp hmem with rfl | hmem'
        · exact hse
        · exact ih _ sl hmem'
      · rw [if_neg hse] at hmem
        exact ih _ sl hmem

/-- Under a valid matcher, every span the loop emits ends inside the
text. -/
theorem scanLoop_bounded (m : Matcher) (N : Nat) (hm : ValidMatcher m N) :
    ∀ fuel cursor sl, sl ∈ (scanLoop m fuel cursor).1 → sl.end_ ≤ N := by
  intro fuel
  induction fuel with
  | zero =>
    intro cursor sl hmem
    rcases h : m cursor with _ | ⟨s, e⟩
    · rw [scanLoop_none m 0 cursor h] at hmem
      exact absurd hmem (List.not_mem_nil sl)
    · rw [scanLoop_fuel_zero m cursor s e h] at hmem
      exact absurd hmem (List.not_mem_nil sl)
  | succ fuel ih =>
    intro cursor sl hmem
    rcases h : m cursor with _ | ⟨s, e⟩
    · rw [scanLoop_none m (fuel + 1) cursor h] at hmem
      exact absurd hmem (List.not_mem_nil sl)
    · rw [scanLoop_fst_succ m fuel cursor s e h] at hmem
      by_cases hse : s < e
      · rw [if_pos hse] at hmem
        rcases List.mem_cons.mp hmem with rfl | hmem'
        · exact (hm cursor _ _ h).2.2
        · exact ih _ sl hmem'
      · rw [if_neg hse] at hmem
        exact ih _ sl hmem

/-- Membership in the scanner's fold over the prepared terms. -/
theorem mem_slicingWith (exec : Exec) (text : Text) (mf : String → JsRegex)
    (ws : List String) (sl : Slice) :
    sl ∈ slicingWith exec text mf ws ↔
      ∃ w ∈ termsOf ws, sl ∈ scanWord exec text (mf w) := by
  unfold slicingWith
  generalize termsOf ws = ts
  suffices h : ∀ (acc : List Slice),
      (sl ∈ ts.foldl (fun slices word => slices ++ scanWord exec text (mf word)) acc ↔
        sl ∈ acc ∨ ∃ w ∈ ts, sl ∈ scanWord exec text (mf w)) by
    simpa using h []
  induction ts with
  | nil => intro acc; simp
  | cons w ws ih =>
    intro acc
    rw [List.foldl_cons, ih]
    simp only [List.mem_append, List.mem_cons]
    constructor
    · rintro ((h | h) | ⟨w', hw', h⟩)
      · exact Or.inl h
      · exact Or.inr ⟨w, Or.inl rfl, h⟩
      · exact Or.inr ⟨w', Or.inr hw', h⟩
    · rintro (h | ⟨w', (rfl | hw'), h⟩)
      · exact Or.inl (Or.inl h)
      · exact Or.inl (Or.inr h)
      · exact Or.inr ⟨w', hw', h⟩

/-- The merger's greedy loop preserves strict spans: if the accumulator
and all remaining spans are non-empty, so is every output span. -/
theorem mergeLoop_strict :
    ∀ (rest : List Slice) (current : Slice), current.start < current.end_ →
      (∀ sl ∈ rest, sl.start < sl.end_) →
      ∀ sl ∈ mergeLoop current rest, sl.start < sl.end_ := by
  intro rest
  induction rest with
  | nil =>
    intro current hc _ sl hm
    rcases List.mem_singleton.mp hm with rfl
    exact hc
  | cons next rest ih =>
    intro current hc hrest sl hm
    by_cases h : next.start ≤ current.end_
    · rw [mergeLoop, if_pos h] at hm
      refine ih ⟨current.start, max current.end_ next.end_⟩ ?_
        (fun x hx => hrest x (List.mem_cons_of_mem _ hx)) sl hm
      exact Nat.lt_of_lt_of_le hc (Nat.le_max_left _ _)
    · rw [mergeLoop, if_neg h] at hm
      rcases List.mem_cons.mp hm with rfl | hm'
      · exact hc
      · exact ih next (hrest next (List.mem_cons_self _ _))
          (fun x hx => hrest x (List.mem_cons_of_mem _ hx)) sl hm'

/-- On strictly non-empty input spans, `mergeOverlap` emits only strictly
non-empty spans. -/
theorem mergeOverlap_strict (l : List Slice)
    (h : ∀ sl ∈ l, sl.start < sl.end_) :
    ∀ sl ∈ mergeOverlap l, sl.start < sl.end_ := by
  rw [mergeOverlap_eq_mergeSpec]
  unfold mergeSpec
  have hperm : (sortSlices l).Perm l := List.perm_insertionSort sliceLE l
  cases hs : sortSlices l with
  | nil => intro sl hm; exact absurd hm (List.not_mem_nil sl)
  | cons current rest =>
    rw [hs] at hperm
    have h' : ∀ sl ∈ current :: rest, sl.start < sl.end_ :=
      fun sl hm => h sl (hperm.mem_iff.mp hm)
    exact mergeLoop_strict rest current (h' current (List.mem_cons_self _ _))
      (fun sl hm => h' sl (List.mem_cons_of_mem _ hm))

/-- Every span `fillPiece` emits is strictly non-empty. -/
theorem mem_fillPiece {s e : Nat} {m : Bool} {p : FilledSlice}
    (hm : p ∈ fillPiece s e m) : p.start < p.end_ ∧ p = ⟨s, e, m⟩ := by
  unfold fillPiece at hm
  by_cases h : 0 < e - s
  · rw [if_pos h] at hm
    rcases List.mem_singleton.mp hm with rfl
    exact ⟨show s < e by omega, rfl⟩
  · rw [if_neg h] at hm
    exact absurd hm (List.not_mem_nil p)

/-- Every span the filler's walk emits is strictly non-empty. -/
theorem fillLoop_strict (N : Nat) :
    ∀ (l : List Slice) (cursor : Nat) (p : FilledSlice),
      p ∈ fillLoop N cursor l → p.start < p.end_ := by
  intro l
  induction l with
  | nil =>
    intro cursor p hm
    exact (mem_fillPiece hm).1
  | cons sl rest ih =>
    intro cursor p hm
    simp only [fillLoop, List.mem_append] at hm
    rcases hm with h | h | h
    · exact (mem_fillPiece h).1
    · exact (mem_fillPiece h).1
    · exact ih sl.end_ p h

/-- C7: no zero-length span ever appears in the output of the Scanner
(for any engine, text, terms and options), of the Merger (when every
input span is strictly non-empty), or of the Gap Filler (for every
input). -/
theorem no_zero_length_spans (exec : Exec) (text : Text) (ws : List String)
    (opts : Option OptionsOrMatch) (spans spans2 : List Slice) (N : Nat)
    (h : spans.all (fun sl => decide (sl.start < sl.end_)) = true) :
    (slicing exec text ws opts).all (fun sl => decide (sl.start < sl.end_)) = true ∧
    (mergeOverlap spans).all (fun sl => decide (sl.start < sl.end_)) = true ∧
    (fillSliceGaps spans2 N).all (fun p => decide (p.start < p.end_)) = true := by
  refine ⟨?_, ?_, ?_⟩
  · rw [List.all_eq_true]
    intro sl hm
    rw [decide_eq_true_eq]
    rcases (mem_slicingWith exec text (resolveMatch opts) ws sl).mp hm with ⟨w, _, hsw⟩
    exact scanLoop_strict _ _ _ sl hsw
  · rw [List.all_eq_true]
    intro sl hm
    rw [decide_eq_true_eq]
    rw [List.all_eq_true] at h
    exact mergeOverlap_strict spans
      (fun x hx => decide_eq_true_eq.mp (h x hx)) sl hm
  · rw [List.all_eq_true]
    intro p hm
    rw [decide_eq_true_eq]
    by_cases hN : N = 0
    · subst hN
      exact absurd hm (List.not_mem_nil p)
    · rw [fillSliceGaps_eq_fillLoop spans2 N hN] at hm
      exact fillLoop_strict N spans2 0 p hm

/-- Witness for C7 at concrete inputs. -/
theorem no_zero_length_spans_witness :
    (slicing (fun _ _ _ => none) "ab".toList ["a"] none).all
        (fun sl => decide (sl.start < sl.end_)) = true ∧
    (mergeOverlap [⟨0, 2⟩, ⟨1, 3⟩]).all (fun sl => decide (sl.start < sl.end_)) = true ∧
    (fillSliceGaps [⟨1, 2⟩] 4).all (fun p => decide (p.start < p.end_)) = true :=
  no_zero_length_spans (fun _ _ _ => none) "ab".toList ["a"] none
    [⟨0, 2⟩, ⟨1, 3⟩] [⟨1, 2⟩] 4 (by decide)

/-- Adjacent text fragments concatenate: `t.slice(a,b) ++ t.slice(b,c)`
is `t.slice(a,c)` for `a ≤ b ≤ c`. -/
theorem jsSlice_append (t : Text) (a b c : Nat) (hab : a ≤ b) (hbc : b ≤ c) :
    jsSlice t a b ++ jsSlice t b c = jsSlice t a c := by
  unfold jsSlice
  have h1 : c - a = (b - a) + (c - b) := by omega
  have h2 : a + (b - a) = b := by omega
  rw [h1, List.take_add, List.drop_drop, h2]

/-- Joining the fragments of an exact partition of `[a, N)` yields
`t.slice(a, N)`. -/
theorem PartitionFrom.join (t : Text) {N a : Nat} {out : List FilledSlice}
    (h : PartitionFrom N a out) : joinSlices t out = jsSlice t a N := by
  induction h with
  | nil => simp [joinSlices, jsSlice]
  | cons a p out hs hlt hrec ih =>
    rw [joinSlices, ih, ← hs]
    exact jsSlice_append t p.start p.end_ N (Nat.le_of_lt hlt) hrec.le

/-- The merger's greedy loop keeps every span's end below any bound on
the input ends. -/
theorem mergeLoop_bound (N : Nat) :
    ∀ (rest : List Slice) (current : Slice), current.end_ ≤ N →
      (∀ sl ∈ rest, sl.end_ ≤ N) →
      ∀ sl ∈ mergeLoop current rest, sl.end_ ≤ N := by
  intro rest
  induction rest with
  | nil =>
    intro current hc _ sl hm
    rcases List.mem_singleton.mp hm with rfl
    exact hc
  | cons next rest ih =>
    intro current hc hrest sl hm
    have hnext : next.end_ ≤ N := hrest next (List.mem_cons_self _ _)
    by_cases h : next.start ≤ current.end_
    · rw [mergeLoop, if_pos h] at hm
      refine ih ⟨current.start, max current.end_ next.end_⟩ ?_
        (fun x hx => hrest x (List.mem_cons_of_mem _ hx)) sl hm
      exact Nat.max_le.mpr ⟨hc, hnext⟩
    · rw [mergeLoop, if_neg h] at hm
      rcases List.mem_cons.mp hm with rfl | hm'
      · exact hc
      · exact ih next hnext (fun x hx => hrest x (List.mem_cons_of_mem _ hx)) sl hm'

/-- The merger keeps every span's end below any bound on the input
ends. -/
theorem mergeOverlap_bound (N : Nat) (l : List Slice)
    (h : ∀ sl ∈ l, sl.end_ ≤ N) :
    ∀ sl ∈ mergeOverlap l, sl.end_ ≤ N := by
  rw [mergeOverlap_eq_mergeSpec]
  unfold mergeSpec
  have hperm : (sortSlices l).Perm l := List.perm_insertionSort sliceLE l
  cases hs : sortSlices l with
  | nil => intro sl hm; exact absurd hm (List.not_mem_nil sl)
  | cons current rest =>
    rw [hs] at hperm
    have h' : ∀ sl ∈ current :: rest, sl.end_ ≤ N :=
      fun sl hm => h sl (hperm.mem_iff.mp hm)
    exact mergeLoop_bound N rest current (h' current (List.mem_cons_self _ _))
      (fun sl hm => h' sl (List.mem_cons_of_mem _ hm))

/-- A separated span list bounded by `N` is chain-bounded from any
cursor below all its starts. -/
theorem chainBounded_of_sep (N : Nat) :
    ∀ (l : List Slice) (cursor : Nat),
      (∀ sl ∈ l, sl.start ≤ sl.end_ ∧ sl.end_ ≤ N) →
      l.Pairwise (fun a b => a.end_ < b.start) →
      (∀ sl ∈ l, cursor ≤ sl.start) →
      chainBounded cursor N l = true := by
  intro l
  induction l with
  | nil => intro cursor _ _ _; rfl
  | cons sl rest ih =>
    intro cursor hwf hpair hcur
    have hhead := hwf sl (List.mem_cons_self _ _)
    have hp := List.pairwise_cons.mp hpair
    simp only [chainBounded, Bool.and_eq_true, decide_eq_true_eq]
    refine ⟨⟨⟨hcur sl (List.mem_cons_self _ _), hhead.1⟩, hhead.2⟩, ?_⟩
    exact ih sl.end_ (fun x hx => hwf x (List.mem_cons_of_mem _ hx)) hp.2
      (fun x hx => Nat.le_of_lt (hp.1 x hx))

/-- C8: for every valid engine, text and term list, concatenating
`text.slice(start, end)` over the output of `sliceText text terms`, in
order, reconstructs the text exactly. -/
theorem round_trip (exec : Exec) (hexec : ValidExec exec) (text : Text)
    (words : List String) :
    joinSlices text (sliceText exec text words none) = text := by
  have hwfL : ∀ sl ∈ slicing exec text words none,
      sl.start ≤ sl.end_ ∧ sl.end_ ≤ text.length := by
    intro sl hm
    rcases (mem_slicingWith exec text (resolveMatch none) words sl).mp hm with ⟨w, _, hsw⟩
    have hvm : ValidMatcher (exec (resolveMatch none w) text) text.length :=
      fun c s e h => hexec _ _ c s e h
    exact ⟨Nat.le_of_lt (scanLoop_strict _ _ _ sl hsw),
      scanLoop_bounded _ _ hvm _ _ sl hsw⟩
  have hsep := mergeOverlap_sep (slicing exec text words none)
    (fun sl hm => (hwfL sl hm).1)
  have hbound := mergeOverlap_bound text.length (slicing exec text words none)
    (fun sl hm => (hwfL sl hm).2)
  have hchain : chainBounded 0 text.length
      (mergeOverlap (slicing exec text words none)) = true :=
    chainBounded_of_sep text.length _ 0
      (fun sl hm => ⟨hsep.1.1 sl hm, hbound sl hm⟩) hsep.1.2
      (fun sl _ => Nat.zero_le _)
  show joinSlices text
    (fillSliceGaps (mergeOverlap (slicing exec text words none)) text.length) = text
  by_cases hN : text.length = 0
  · have htext : text = [] := List.length_eq_zero.mp hN
    rw [hN]
    simp [fillSliceGaps, joinSlices, htext]
  · rw [fillSliceGaps_eq_fillLoop _ _ hN]
    have hpart := fillLoop_partition text.length
      (mergeOverlap (slicing exec text words none)) 0 hchain (Nat.zero_le _)
    rw [hpart.join text]
    simp [jsSlice]

/-- Witness for C8 with the exhausted engine on a concrete text. -/
theorem round_trip_witness :
    joinSlices "ab".toList
      (sliceText (fun _ _ _ => none) "ab".toList ["x"] none) = "ab".toList :=
  round_trip (fun _ _ _ => none) (fun _ _ _ _ _ h => nomatch h) "ab".toList ["x"]

/-- C9: the Boundary Pattern Builder returns the word unchanged when the
mode is `false` or the trimmed word is empty, and otherwise anchors it as
`\b word \w+` for `'start'`, `\w+ word \b` for `'end'`, and
`\b word \b` for `true`. -/
theorem pattern_boundary (word : String) (b : Boundary) :
    (b = Boundary.bfalse ∨ jsTrim word = "" → pattern word b = word) ∧
    (jsTrim word ≠ "" →
      pattern word Boundary.bstart = "\\b" ++ word ++ "\\w+" ∧
      pattern word Boundary.bend = "\\w+" ++ word ++ "\\b" ∧
      pattern word Boundary.btrue = "\\b" ++ word ++ "\\b") := by
  constructor
  · intro h
    unfold pattern
    rcases h with rfl | h
    · rw [if_pos (Or.inr rfl)]
    · rw [if_pos (Or.inl h)]
  · intro h
    refine ⟨?_, ?_, ?_⟩ <;> simp [pattern, h]

/-- Witness for C9 on the word `"a"`. -/
theorem pattern_boundary_witness :
    pattern "a" Boundary.bfalse = "a" ∧
    pattern "a" Boundary.bstart = "\\b" ++ "a" ++ "\\w+" ∧
    pattern "a" Boundary.bend = "\\w+" ++ "a" ++ "\\b" ∧
    pattern "a" Boundary.btrue = "\\b" ++ "a" ++ "\\b" := by
  obtain ⟨h1, h2⟩ := pattern_boundary "a" Boundary.bfalse
  have h3 := h2 (by decide)
  exact ⟨h1 (Or.inl rfl), h3.1, h3.2.1, h3.2.2⟩

theorem mem_dedupSeen :
    ∀ (ws seen : List String) (w : String),
      w ∈ dedupSeen seen ws ↔ w ∈ ws ∧ w ∉ seen := by
  intro ws
  induction ws with
  | nil => intro seen w; simp [dedupSeen]
  | cons x ws ih =>
    intro seen w
    by_cases hx : x ∈ seen
    · rw [dedupSeen, if_pos hx, ih seen w]
      constructor
      · rintro ⟨hw, hn⟩
        exact ⟨List.mem_cons_of_mem _ hw, hn⟩
      · rintro ⟨hwx, hn⟩
        rcases List.mem_cons.mp hwx with rfl | hw
        · exact absurd hx hn
        · exact ⟨hw, hn⟩
    · rw [dedupSeen, if_neg hx]
      constructor
      · intro hm
        rcases List.mem_cons.mp hm with rfl | hm'
        · exact ⟨List.mem_cons_self _ _, hx⟩
        · rcases (ih (x :: seen) w).mp hm' with ⟨hw, hn⟩
          exact ⟨List.mem_cons_of_mem _ hw,
            fun hs => hn (List.mem_cons_of_mem _ hs)⟩
      · rintro ⟨hwx, hn⟩
        rcases List.mem_cons.mp hwx with rfl | hw
        · exact List.mem_cons_self _ _
        · by_cases hwx' : w = x
          · subst hwx'
            exact List.mem_cons_self _ _
          · refine List.mem_cons_of_mem _ ((ih (x :: seen) w).mpr ⟨hw, ?_⟩)
            intro hs
            rcases List.mem_cons.mp hs with h' | h'
            · exact hwx' h'
            · exact hn h'

theorem mem_dedupFirst (ws : List String) (w : String) :
    w ∈ dedupFirst ws ↔ w ∈ ws := by
  rw [dedupFirst, mem_dedupSeen]
  simp

/-- The prepared term list keeps exactly the non-empty search words: the
filter removes empty strings only. -/
theorem mem_termsOf (ws : List String) (w : String) :
    w ∈ termsOf ws ↔ w ∈ ws ∧ w ≠ "" := by
  unfold termsOf
  simp [List.mem_filter, mem_dedupFirst]

/-- C10: a whitespace-only term is not dropped by the Scanner (the term
filter removes exactly the empty strings), the Boundary Pattern Builder
returns it unchanged in every anchoring mode (its trimmed form is
empty), and under the default whole-word configuration the term `" "`
compiles to the raw single-space pattern and matches its raw occurrences
in the text with no boundary anchoring applied. -/
theorem whitespace_term_kept (ws : List String) (w : String)
    (hw : jsTrim w = "") :
    (w ∈ termsOf ws ↔ w ∈ ws ∧ w ≠ "") ∧
    (pattern w Boundary.btrue = w ∧ pattern w Boundary.bstart = w ∧
      pattern w Boundary.bend = w) ∧
    buildRegex defaultOptions " " = ⟨" ", true⟩ ∧
    slicing execWordModel "a b c".toList [" "] none = [⟨1, 2⟩, ⟨3, 4⟩] := by
  refine ⟨mem_termsOf ws w, ⟨?_, ?_, ?_⟩, by decide, by decide⟩
  all_goals unfold pattern; rw [if_pos (Or.inl hw)]

/-- Witness for C10 on the term `" "`. -/
theorem whitespace_term_kept_witness :
    (" " ∈ termsOf ["", " "] ↔ " " ∈ ["", " "] ∧ " " ≠ "") ∧
    (pattern " " Boundary.btrue = " " ∧ pattern " " Boundary.bstart = " " ∧
      pattern " " Boundary.bend = " ") ∧
    buildRegex defaultOptions " " = ⟨" ", true⟩ ∧
    slicing execWordModel "a b c".toList [" "] none = [⟨1, 2⟩, ⟨3, 4⟩] :=
  whitespace_term_kept ["", " "] " " (by decide)
